import Mathlib

/-!
Shallow embedding of the crawdad double-array trie library (src/bpxcheck.rs,
src/trie.rs, src/lib.rs) and proofs about its bit-parallel free-base search
and query semantics.  Machine integers (u32, u64) are embedded as `Nat`
together with explicit range hypotheses where overflow or complement matters.
-/

namespace Crawdad

/-- Constant `OFFSET_MASK: u32 = 0x7fff_ffff` from src/lib.rs. -/
def OFFSET_MASK : Nat := 0x7fffffff

/-- Constant `INVALID_IDX: u32 = 0xffff_ffff` from src/lib.rs. -/
def INVALID_IDX : Nat := 0xffffffff

/-- Constant `END_CODE: u32 = 0` from src/lib.rs. -/
def END_CODE : Nat := 0

/-- The state of `BPXChecker` (src/bpxcheck.rs): a growable array of 64-bit
occupancy words.  Words are `Nat`s; well-formed states keep them below `2^64`. -/
structure BPXChecker where
  bitmap : List Nat
deriving DecidableEq

/-- A `BPXChecker` is well formed when every stored word fits in 64 bits
(the Rust field has type `Vec<u64>`). -/
def BPXWf (c : BPXChecker) : Prop := ∀ w ∈ c.bitmap, w < 2 ^ 64

instance (c : BPXChecker) : Decidable (BPXWf c) :=
  inferInstanceAs (Decidable (∀ w ∈ c.bitmap, w < 2 ^ 64))

namespace BPXChecker

/-- Function `word_filled_by(bit) -> u64`: all-ones (`!0u64`) or zero. -/
def word_filled_by (bit : Bool) : Nat := if bit then 2 ^ 64 - 1 else 0

/-- Function `required_word_len(len)`: `(len + 63) / 64`. -/
def required_word_len (len : Nat) : Nat := (len + 64 - 1) / 64

/-- Function `word_index(i) = i / 64`. -/
def word_index (i : Nat) : Nat := i / 64

/-- Function `word_offset(i) = i % 64`. -/
def word_offset (i : Nat) : Nat := i % 64

/-- Method `get_word(wi) -> u64` (src/bpxcheck.rs lines 50-58).  The u32
complement `!(OFFSET_MASK >> 6)` is written as XOR with the all-ones u32. -/
def get_word (c : BPXChecker) (wi : Nat) : Nat :=
  if wi &&& ((OFFSET_MASK >>> 6) ^^^ 0xffffffff) ≠ 0 then
    word_filled_by true
  else if c.bitmap.length ≤ wi then
    word_filled_by false
  else
    c.bitmap.getD wi 0

/-- Method `is_fixed(i) -> bool` (src/bpxcheck.rs lines 62-65):
`get_word(q) & (1 << r) != 0` where `(q, r) = (i / 64, i % 64)`. -/
def is_fixed (c : BPXChecker) (i : Nat) : Bool :=
  (c.get_word (word_index i)) &&& (1 <<< word_offset i) != 0

/-- Method `set_fixed(i)` (src/bpxcheck.rs lines 68-71):
`bitmap[q] |= 1 << r`.  Rust indexing panics when `q` is out of bounds;
the panic is modelled as `none`. -/
def set_fixed (c : BPXChecker) (i : Nat) : Option BPXChecker :=
  if word_index i < c.bitmap.length then
    some ⟨c.bitmap.set (word_index i)
      ((c.bitmap.getD (word_index i) 0) ||| (1 <<< word_offset i))⟩
  else
    none

/-- List analogue of `Vec::resize(n, v)`: truncate to `n` or pad with `v`. -/
def listResize (l : List Nat) (n : Nat) (v : Nat) : List Nat :=
  l.take n ++ List.replicate (n - l.length) v

/-- Method `resize(new_len)` (src/bpxcheck.rs lines 73-75):
`bitmap.resize(required_word_len(new_len), 0)`. -/
def resize (c : BPXChecker) (new_len : Nat) : BPXChecker :=
  ⟨listResize c.bitmap (required_word_len new_len) (word_filled_by false)⟩

/-- Constant array `BLOCK_MASKS` (src/bpxcheck.rs lines 77-84), as a function
from the loop index.  The entries `0b0101 * 0x1111...` and `0b0011 * 0x1111...`
are written out as their hexadecimal values. -/
def BLOCK_MASKS : Nat → Nat
  | 0 => 0x5555555555555555
  | 1 => 0x3333333333333333
  | 2 => 0x0F0F0F0F0F0F0F0F
  | 3 => 0x00FF00FF00FF00FF
  | 4 => 0x0000FFFF0000FFFF
  | _ => 0x00000000FFFFFFFF

/-- Constant `NO_CANDIDATE = !0u64`. -/
def NO_CANDIDATE : Nat := word_filled_by true

/-- One iteration of the block-wise swap loop in `disabled_base_mask`
(src/bpxcheck.rs lines 96-101), at loop index `k` (width `1 << k`):
`w = ((w >> width) & BLOCK_MASKS[k]) | ((w & BLOCK_MASKS[k]) << width)`. -/
def blockSwap (k : Nat) (w : Nat) : Nat :=
  ((w >>> (1 <<< k)) &&& BLOCK_MASKS k) ||| ((w &&& BLOCK_MASKS k) <<< (1 <<< k))

/-- The first `m` iterations (`k = 0, ..., m-1`, in source order) of the
block-wise swap loop, each gated by `label & (1 << k) != 0`. -/
def butterflyStages (label w : Nat) : Nat → Nat
  | 0 => w
  | m + 1 =>
    let w' := butterflyStages label w m
    if label &&& (1 <<< m) ≠ 0 then blockSwap m w' else w'

/-- The whole permutation applied to a fetched word in `disabled_base_mask`:
the five gated block swaps followed by the 32-bit half swap
`(w >> 32) | (w << 32)` gated by `label & (1 << 5) != 0`.  The u64 wrap of
`w << 32` is the explicit `% 2 ^ 64`. -/
def butterfly (label w : Nat) : Nat :=
  let w5 := butterflyStages label w 5
  if label &&& (1 <<< 5) ≠ 0 then (w5 >>> 32) ||| ((w5 <<< 32) % 2 ^ 64) else w5

/-- The label loop of `disabled_base_mask` (src/bpxcheck.rs lines 92-108) with
accumulator `x`, including the early `break` once `x` is all-ones. -/
def dbmLoop (c : BPXChecker) (base_front : Nat) : List Nat → Nat → Nat
  | [], x => x
  | label :: rest, x =>
    let q := word_index (base_front ^^^ label)
    let w := butterfly label (c.get_word q)
    let x' := x ||| w
    if x' = NO_CANDIDATE then x' else dbmLoop c base_front rest x'

/-- Method `disabled_base_mask(base_front, labels) -> u64`
(src/bpxcheck.rs lines 88-110). -/
def disabled_base_mask (c : BPXChecker) (base_front : Nat) (labels : List Nat) : Nat :=
  dbmLoop c base_front labels 0

/-- Constant `BASE_FRONT_MASK = !(BITS - 1)` as a u32, written as XOR with
the all-ones u32 (value `0xffffffc0`). -/
def BASE_FRONT_MASK : Nat := 63 ^^^ 0xffffffff

/-- Fuelled count of trailing one bits; `u64::trailing_ones` is
`trailing_ones_aux 64` on words below `2 ^ 64`. -/
def trailing_ones_aux : Nat → Nat → Nat
  | 0, _ => 0
  | fuel + 1, x => if x % 2 = 1 then trailing_ones_aux fuel (x / 2) + 1 else 0

/-- Rust `u64::trailing_ones` for words below `2 ^ 64`. -/
def trailing_ones (x : Nat) : Nat := trailing_ones_aux 64 x

/-- Method `find_base_for_64adjacent(base_origin, labels) -> u32`
(src/bpxcheck.rs lines 115-123). -/
def find_base_for_64adjacent (c : BPXChecker) (base_origin : Nat) (labels : List Nat) : Nat :=
  let base_front := base_origin &&& BASE_FRONT_MASK
  let x := c.disabled_base_mask base_front labels
  if x ≠ NO_CANDIDATE then base_front ^^^ trailing_ones x else INVALID_IDX

end BPXChecker

/-- A single mutation of the occupancy bitmap, as used during construction. -/
inductive BuildOp where
  | set_fixed (i : Nat)
  | resize (new_len : Nat)
deriving DecidableEq

/-- Apply one mutation; `none` models the Rust panic of an out-of-bounds
`set_fixed`. -/
def applyOp (c : BPXChecker) : BuildOp → Option BPXChecker
  | BuildOp.set_fixed i => c.set_fixed i
  | BuildOp.resize n => some (c.resize n)

/-- Apply a sequence of mutations, stopping at the first panic. -/
def applyOps (c : BPXChecker) : List BuildOp → Option BPXChecker
  | [] => some c
  | op :: rest =>
    match applyOp c op with
    | none => none
    | some c' => applyOps c' rest

/-- A mutation is growing when it is a `set_fixed`, or a `resize` whose new
word count is at least the current one. -/
def opGrows (c : BPXChecker) : BuildOp → Bool
  | BuildOp.set_fixed _ => true
  | BuildOp.resize n => decide (c.bitmap.length ≤ BPXChecker.required_word_len n)

/-- Every mutation in the sequence is growing at its application time. -/
def goodSeq (c : BPXChecker) : List BuildOp → Bool
  | [] => true
  | op :: rest =>
    opGrows c op &&
      (match applyOp c op with
       | none => true
       | some c' => goodSeq c' rest)

/-! The double-array trie (src/trie.rs together with the `Node` type of
src/lib.rs). -/

/-- The `Node` type of src/lib.rs: a `(base, check)` pair of u32 fields. -/
structure Node where
  base : Nat
  check : Nat
deriving DecidableEq

namespace Node

/-- Method `get_base`: the low 31 bits of `base`. -/
def get_base (n : Node) : Nat := n.base &&& OFFSET_MASK

/-- Method `get_check`: the low 31 bits of `check`. -/
def get_check (n : Node) : Nat := n.check &&& OFFSET_MASK

/-- Method `is_leaf`: `base & !OFFSET_MASK != 0`; the u32 complement
`!OFFSET_MASK` is written as XOR with the all-ones u32. -/
def is_leaf (n : Node) : Bool := n.base &&& (OFFSET_MASK ^^^ 0xffffffff) != 0

/-- Method `has_leaf`: `check & !OFFSET_MASK != 0`. -/
def has_leaf (n : Node) : Bool := n.check &&& (OFFSET_MASK ^^^ 0xffffffff) != 0

/-- Method `is_vacant`: both fields equal `OFFSET_MASK`. -/
def is_vacant (n : Node) : Bool := n.base == OFFSET_MASK && n.check == OFFSET_MASK

end Node

/-- The not-yet-placed sentinel node (spec section 3, `is_vacant`). -/
def vacantNode : Node := ⟨OFFSET_MASK, OFFSET_MASK⟩

/-- Modelled from the spec: the character-to-dense-code mapper
(src/mapper.rs, not under src/) is consumed as an opaque collaborator
exposing `get(char) -> Option<code>` (spec section 6). -/
structure CodeMapper where
  get : Char → Option Nat

/-- The finished automaton (src/trie.rs): a code mapper and the node table. -/
structure Trie where
  mapper : CodeMapper
  nodes : List Node

/-- Modelled from the spec: `Match` (declared at the crate root, not under
src/) exposes `value()` and `end()` (spec section 6); the Rust field `end`
is a reserved word here and is called `endPos`. -/
structure Match where
  value : Nat
  endPos : Nat
deriving DecidableEq

/-- The state of `CommonPrefixSearcher` (src/trie.rs lines 253-258); the
trie reference is passed separately to each call. -/
structure CommonPrefixSearcher where
  text : List (Option Nat)
  text_pos : Nat
  node_idx : Nat
deriving DecidableEq

namespace Trie

/-- Bounds-checked access to the node table; `none` models the Rust panic
of `self.nodes[i]` on an out-of-bounds index. -/
def node? (t : Trie) (i : Nat) : Option Node := t.nodes[i]?

/-- Total access to the node table used by the specification-side
definitions, defaulting to the vacant sentinel. -/
def nodeD (t : Trie) (i : Nat) : Node := t.nodes.getD i vacantNode

/-- Method `get_child_idx(node_idx, mc)` (src/trie.rs lines 193-202). -/
def get_child_idx (t : Trie) (node_idx mc : Nat) : Except Unit (Option Nat) :=
  match t.node? node_idx with
  | none => Except.error ()
  | some nd =>
    if nd.is_leaf then Except.ok none
    else
      let child_idx := nd.get_base ^^^ mc
      match t.node? child_idx with
      | none => Except.error ()
      | some ch =>
        if ch.get_check = node_idx then Except.ok (some child_idx) else Except.ok none

/-- The character loop and epilogue of `exact_match` (src/trie.rs lines
107-130), parameterized by the current node index. -/
def emLoop (t : Trie) : List Char → Nat → Except Unit (Option Nat)
  | [], node_idx =>
    match t.node? node_idx with
    | none => Except.error ()
    | some nd =>
      if nd.is_leaf then Except.ok (some nd.get_base)
      else if nd.has_leaf then
        match t.node? (nd.get_base ^^^ END_CODE) with
        | none => Except.error ()
        | some leaf => Except.ok (some leaf.get_base)
      else Except.ok none
  | c :: rest, node_idx =>
    match t.mapper.get c with
    | none => Except.ok none
    | some mc =>
      match t.get_child_idx node_idx mc with
      | Except.error e => Except.error e
      | Except.ok none => Except.ok none
      | Except.ok (some child_idx) => t.emLoop rest child_idx

/-- Method `exact_match(key)` (src/trie.rs lines 107-130), starting at the
root index 0.  `Except.error` models a Rust panic; the code is expected
never to take it on a finished trie. -/
def exact_match (t : Trie) (key : List Char) : Except Unit (Option Nat) :=
  t.emLoop key 0

/-- Specification-side walk of `exact_match`, written from the claimed
description: each step goes from node `p` with code `c` to child index
`base(p) XOR c`, accepted exactly when `check(child) = p`; at the end the
masked base value is returned for a leaf, the synthetic leaf's value when
`has_leaf`, and nothing otherwise. -/
def em_spec (t : Trie) : List Char → Nat → Option Nat
  | [], p =>
    let nd := t.nodeD p
    if nd.is_leaf then some nd.get_base
    else if nd.has_leaf then some ((t.nodeD (nd.get_base ^^^ END_CODE)).get_base)
    else none
  | c :: rest, p =>
    match t.mapper.get c with
    | none => none
    | some mc =>
      let child := (t.nodeD p).get_base ^^^ mc
      if (t.nodeD child).get_check = p then t.em_spec rest child else none

/-- Specification-side `exact_match`, starting at the root index 0. -/
def exact_match_spec (t : Trie) (key : List Char) : Option Nat :=
  t.em_spec key 0

/-- Method `map_text(text, mapped)` (src/trie.rs lines 182-190):
`mapped.clear()` (the `take 0`) followed by one `push` per character. -/
def map_text (t : Trie) (text : List Char) (mapped : List (Option Nat)) :
    List (Option Nat) :=
  text.foldl (fun acc c => acc ++ [t.mapper.get c]) (mapped.take 0)

/-- Method `common_prefix_searcher(text)` (src/trie.rs lines 163-173):
the initial iterator state. -/
def common_prefix_searcher (t : Trie) (text : List (Option Nat)) :
    CommonPrefixSearcher :=
  ⟨text, 0, 0⟩

/-- One pull of the `CommonPrefixSearcher` iterator (src/trie.rs lines
264-294): the `while` loop is the recursion, which runs while `text_pos`
is below the text length; `Except.error` models a Rust panic. -/
def cs_next (t : Trie) (s : CommonPrefixSearcher) :
    Except Unit (Option Match × CommonPrefixSearcher) :=
  if h : s.text_pos < s.text.length then
    match s.text.getD s.text_pos none with
    | some mc =>
      match t.get_child_idx s.node_idx mc with
      | Except.error e => Except.error e
      | Except.ok none => Except.ok (none, { s with text_pos := s.text.length })
      | Except.ok (some child_idx) =>
        match t.node? child_idx with
        | none => Except.error ()
        | some nd =>
          if nd.is_leaf then
            Except.ok (some ⟨nd.get_base, s.text_pos + 1⟩,
              { s with node_idx := child_idx, text_pos := s.text.length })
          else if nd.has_leaf then
            match t.node? (nd.get_base ^^^ END_CODE) with
            | none => Except.error ()
            | some leaf =>
              Except.ok (some ⟨leaf.get_base, s.text_pos + 1⟩,
                { s with node_idx := child_idx, text_pos := s.text_pos + 1 })
          else t.cs_next { s with node_idx := child_idx, text_pos := s.text_pos + 1 }
    | none => Except.ok (none, { s with text_pos := s.text.length })
  else Except.ok (none, s)
termination_by s.text.length - s.text_pos
decreasing_by simp_wf; omega

/-- Specification-side pull of the searcher, written from the claimed
description: an unmappable position or a rejected step terminates the
iteration; a step onto a leaf yields its value with `end = position + 1`
and terminates; a step onto a `has_leaf` node yields the synthetic leaf's
value with `end = position + 1` and continues from that node; otherwise
the walk advances without yielding. -/
def cs_next_spec (t : Trie) (s : CommonPrefixSearcher) :
    Option Match × CommonPrefixSearcher :=
  if h : s.text_pos < s.text.length then
    match s.text.getD s.text_pos none with
    | none => (none, { s with text_pos := s.text.length })
    | some mc =>
      let child := (t.nodeD s.node_idx).get_base ^^^ mc
      if (t.nodeD child).get_check = s.node_idx then
        if (t.nodeD child).is_leaf then
          (some ⟨(t.nodeD child).get_base, s.text_pos + 1⟩,
            { s with node_idx := child, text_pos := s.text.length })
        else if (t.nodeD child).has_leaf then
          (some ⟨(t.nodeD ((t.nodeD child).get_base ^^^ END_CODE)).get_base,
              s.text_pos + 1⟩,
            { s with node_idx := child, text_pos := s.text_pos + 1 })
        else t.cs_next_spec { s with node_idx := child, text_pos := s.text_pos + 1 }
      else (none, { s with text_pos := s.text.length })
  else (none, s)
termination_by s.text.length - s.text_pos
decreasing_by simp_wf; omega

end Trie

/-- Modelled from the spec: the properties the Builder (src/builder.rs, not
under src/) establishes for a finished trie (spec sections 3, 4.2 and 7).
A finished trie keeps vacant sentinel slots (`base = check = OFFSET_MASK`,
counted by `num_vacants`); only placed (non-vacant) nodes carry the
builder's guarantees.  The guarantees: the root exists and is placed, the
table fits the 31-bit index domain, every child probe `base(p) XOR code`
from a placed non-leaf node and every synthetic leaf probe
`base(p) XOR END_CODE` lands inside the table, and a leaf node owns no
children (no `check` back-pointer names a leaf as parent).  Vacant nodes
need no probe guarantee: their back-pointer is the all-ones 31-bit value,
which never names a parent, so no query step is accepted into or out of
them. -/
def WFQuery (t : Trie) : Prop :=
  0 < t.nodes.length ∧
  t.nodes.length ≤ OFFSET_MASK ∧
  (t.nodeD 0).is_vacant = false ∧
  (∀ p, p < t.nodes.length → (t.nodeD p).is_vacant = false →
    (t.nodeD p).is_leaf = false →
    ∀ ch mc, t.mapper.get ch = some mc →
      (t.nodeD p).get_base ^^^ mc < t.nodes.length) ∧
  (∀ p, p < t.nodes.length → (t.nodeD p).has_leaf = true →
    (t.nodeD p).get_base ^^^ END_CODE < t.nodes.length) ∧
  (∀ p, p < t.nodes.length → (t.nodeD p).is_leaf = true →
    ∀ x, x < t.nodes.length → (t.nodeD x).get_check ≠ p)

/-- A mapped text as produced by `map_text`: every present code is an
output of the trie's mapper for some character. -/
def MappedText (t : Trie) (text : List (Option Nat)) : Prop :=
  ∀ o ∈ text, ∀ v, o = some v → ∃ ch, t.mapper.get ch = some v

/-- A concrete mapper for witnesses: the character `a` has dense code 1. -/
def sampleMapper : CodeMapper := ⟨fun c => if c = 'a' then some 1 else none⟩

/-- A concrete finished trie for witnesses: the root (node 0, base 0) has a
single child for code 1 at index 1, a leaf holding value 7; slot 2 is a
vacant sentinel, as finished tries keep (`num_vacants`). -/
def sampleTrie : Trie :=
  ⟨sampleMapper,
    [⟨0, OFFSET_MASK⟩, ⟨0x80000007, 0⟩, ⟨OFFSET_MASK, OFFSET_MASK⟩]⟩

namespace BPXChecker

/-! Bit-level helper lemmas for the butterfly permutation. -/

/-- Characterization of the five block masks and of XOR with a power of two
on 6-bit indices, verified by exhaustive computation. -/
theorem maskKey : ∀ k, k < 5 → ∀ j, j < 64 →
    ((BLOCK_MASKS k).testBit j = !(j.testBit k)) ∧
    (j.testBit k = false → j ^^^ 2 ^ k = j + 2 ^ k ∧
      (2 ^ k ≤ j → (j - 2 ^ k).testBit k = true)) ∧
    (j.testBit k = true → 2 ^ k ≤ j ∧ j ^^^ 2 ^ k = j - 2 ^ k ∧
      (j - 2 ^ k).testBit k = false) := by decide

/-- Bit `i` of one gated block swap is bit `i XOR 2^k` of the input word. -/
theorem blockSwap_testBit (k w i : Nat) (hk : k < 5) (hi : i < 64) :
    (blockSwap k w).testBit i = w.testBit (i ^^^ 2 ^ k) := by
  have h1 := maskKey k hk i hi
  have h2 := maskKey k hk (i - 2 ^ k) (Nat.lt_of_le_of_lt (Nat.sub_le i _) hi)
  simp only [blockSwap, Nat.one_shiftLeft, Nat.testBit_or, Nat.testBit_and,
    Nat.testBit_shiftLeft, Nat.testBit_shiftRight]
  cases hb : i.testBit k with
  | false =>
    obtain ⟨hx, hlt⟩ := h1.2.1 hb
    rw [h1.1, hb]
    by_cases hle : 2 ^ k ≤ i
    · rw [h2.1, hlt hle]
      simp [hx, Nat.add_comm]
    · simp [hx, hle, Nat.add_comm]
  | true =>
    obtain ⟨hle, hx, hbk⟩ := h1.2.2 hb
    rw [h1.1, hb, h2.1, hbk]
    simp [hx, hle]

/-- Intersection with a power of two, written as a conditional. -/
theorem and_two_pow_eq (n k : Nat) :
    n &&& 2 ^ k = if n.testBit k then 2 ^ k else 0 := by
  apply Nat.eq_of_testBit_eq
  intro j
  cases hb : n.testBit k with
  | true =>
    simp only [Nat.testBit_and, Nat.testBit_two_pow, hb, if_true]
    by_cases hkj : k = j
    · subst hkj; simp [hb]
    · simp [hkj, Ne.symm hkj]
  | false =>
    simp only [Nat.testBit_and, Nat.testBit_two_pow, hb, if_false, Nat.zero_testBit]
    by_cases hkj : k = j
    · subst hkj; simp [hb]
    · simp [hkj]

/-- The Rust loop condition `label & (1 << k) != 0` tests bit `k`. -/
theorem and_two_pow_ne_zero_iff (n k : Nat) :
    (n &&& 2 ^ k ≠ 0) ↔ n.testBit k = true := by
  rw [and_two_pow_eq]
  have h2k : (2 : Nat) ^ k ≠ 0 := (Nat.pow_pos (by omega)).ne'
  cases hb : n.testBit k <;> simp [hb, h2k]

/-- Splitting a modulus `2^(m+1)` into a modulus `2^m` and the gating bit. -/
theorem mod_two_pow_succ_eq_xor (label m : Nat) :
    label % 2 ^ (m + 1) =
      (label % 2 ^ m) ^^^ (if label.testBit m then 2 ^ m else 0) := by
  apply Nat.eq_of_testBit_eq
  intro j
  cases hb : label.testBit m with
  | true =>
    simp only [hb, if_true, Nat.testBit_xor, Nat.testBit_mod_two_pow, Nat.testBit_two_pow]
    rcases Nat.lt_trichotomy j m with h | h | h
    · have h1 : j < m + 1 := by omega
      have h2 : m ≠ j := by omega
      simp [h, h1, h2]
    · subst h
      simp [hb, Nat.lt_irrefl, Nat.lt_succ_self]
    · have h1 : ¬ j < m := by omega
      have h2 : ¬ j < m + 1 := by omega
      have h3 : m ≠ j := by omega
      simp [h1, h2, h3]
  | false =>
    simp only [hb, if_false, Nat.xor_zero, Nat.testBit_mod_two_pow]
    rcases Nat.lt_trichotomy j m with h | h | h
    · have h1 : j < m + 1 := by omega
      simp [h, h1]
    · subst h
      simp [hb, Nat.lt_irrefl, Nat.lt_succ_self]
    · have h1 : ¬ j < m := by omega
      have h2 : ¬ j < m + 1 := by omega
      simp [h1, h2]

/-- XOR of two 6-bit indices is a 6-bit index. -/
theorem xor_lt_64 {a b : Nat} (ha : a < 64) (hb : b < 64) : a ^^^ b < 64 := by
  have h64 : (64 : Nat) = 2 ^ 6 := by norm_num
  rw [h64] at ha hb ⊢
  exact Nat.xor_lt_two_pow ha hb

/-- Bit `i` of the first `m` butterfly stages is bit `i XOR (label mod 2^m)`
of the input word, for `m ≤ 5` and `i < 64`. -/
theorem butterflyStages_testBit (label w : Nat) :
    ∀ m, m ≤ 5 → ∀ i, i < 64 →
      (butterflyStages label w m).testBit i = w.testBit (i ^^^ label % 2 ^ m) := by
  intro m
  induction m with
  | zero => intro _ i _; simp [butterflyStages, Nat.mod_one]
  | succ m ih =>
    intro hm i hi
    have hm' : m ≤ 5 := by omega
    have hm5 : m < 5 := by omega
    have hsplit := mod_two_pow_succ_eq_xor label m
    simp only [butterflyStages, Nat.one_shiftLeft]
    cases hb : label.testBit m with
    | true =>
      have hxlt : i ^^^ 2 ^ m < 64 := by
        have h2m : (2 : Nat) ^ m < 64 :=
          Nat.lt_of_le_of_lt (Nat.pow_le_pow_right (by omega) (by omega : m ≤ 4))
            (by norm_num)
        exact xor_lt_64 hi h2m
      rw [if_pos ((and_two_pow_ne_zero_iff label m).mpr hb),
        blockSwap_testBit m _ i hm5 hi, ih hm' (i ^^^ 2 ^ m) hxlt, hsplit]
      simp only [hb, if_true]
      congr 1
      rw [Nat.xor_assoc, Nat.xor_comm (2 ^ m) _]
    | false =>
      have hne : ¬ (label &&& 2 ^ m ≠ 0) := by
        simp [and_two_pow_eq, hb]
      rw [if_neg hne, ih hm' i hi, hsplit]
      simp [hb]

/-- Every block swap keeps the word below `2^64`. -/
theorem blockSwap_lt (k w : Nat) (hk : k < 5) : blockSwap k w < 2 ^ 64 := by
  have hmask : ∀ k', k' < 5 →
      BLOCK_MASKS k' < 2 ^ 64 ∧ (BLOCK_MASKS k') <<< (2 ^ k') < 2 ^ 64 := by decide
  obtain ⟨hm, hms⟩ := hmask k hk
  unfold blockSwap
  rw [Nat.one_shiftLeft]
  apply Nat.or_lt_two_pow
  · exact Nat.and_lt_two_pow _ hm
  · calc (w &&& BLOCK_MASKS k) <<< (2 ^ k)
        ≤ (BLOCK_MASKS k) <<< (2 ^ k) := by
          simp only [Nat.shiftLeft_eq]
          exact Nat.mul_le_mul_right _ (Nat.and_le_right)
    _ < 2 ^ 64 := hms

/-- The butterfly stages keep the word below `2^64`. -/
theorem butterflyStages_lt (label w : Nat) (hw : w < 2 ^ 64) :
    ∀ m, m ≤ 5 → butterflyStages label w m < 2 ^ 64 := by
  intro m
  induction m with
  | zero => intro _; simpa [butterflyStages] using hw
  | succ m ih =>
    intro hm
    have hm' : m ≤ 5 := by omega
    simp only [butterflyStages]
    split
    · exact blockSwap_lt m _ (by omega)
    · exact ih hm'

/-- The full butterfly permutation realizes XOR by `label mod 64` on the
6-bit intra-word index: bit `i` of the output is bit `i XOR (label % 64)`
of the input word. -/
theorem butterfly_testBit (label w i : Nat) (hw : w < 2 ^ 64) (hi : i < 64) :
    (butterfly label w).testBit i = w.testBit (i ^^^ label % 64) := by
  have hw5 : butterflyStages label w 5 < 2 ^ 64 :=
    butterflyStages_lt label w hw 5 (le_refl 5)
  have hstage := butterflyStages_testBit label w 5 (le_refl 5)
  have h25 : (2 : Nat) ^ 5 = 32 := by norm_num
  simp only [h25] at hstage
  have hsplit : label % 64 = (label % 32) ^^^ (if label.testBit 5 then 32 else 0) := by
    have h := mod_two_pow_succ_eq_xor label 5
    norm_num at h
    exact h
  have hkey : ∀ j, j < 64 → (j < 32 → j ^^^ 32 = j + 32) ∧
      (32 ≤ j → j ^^^ 32 = j - 32) := by decide
  unfold butterfly
  simp only [Nat.one_shiftLeft, h25]
  cases hb : label.testBit 5 with
  | true =>
    rw [if_pos (by
      have := (and_two_pow_ne_zero_iff label 5).mpr hb
      simpa [h25] using this)]
    have hx32 : i ^^^ 32 < 64 := xor_lt_64 hi (by norm_num)
    have hgoal : ((butterflyStages label w 5 >>> 32) |||
        (butterflyStages label w 5 <<< 32 % 2 ^ 64)).testBit i =
        (butterflyStages label w 5).testBit (i ^^^ 32) := by
      simp only [Nat.testBit_or, Nat.testBit_mod_two_pow, Nat.testBit_shiftLeft,
        Nat.testBit_shiftRight]
      by_cases hge : 32 ≤ i
      · have h1 : (butterflyStages label w 5).testBit (32 + i) = false := by
          apply Nat.testBit_lt_two_pow
          calc butterflyStages label w 5 < 2 ^ 64 := hw5
          _ ≤ 2 ^ (32 + i) := Nat.pow_le_pow_right (by omega) (by omega)
        rw [(hkey i hi).2 hge, h1]
        simp [hi, hge]
      · rw [(hkey i hi).1 (by omega)]
        simp [hi, hge, Nat.add_comm]
    rw [hgoal, hstage (i ^^^ 32) hx32, hsplit]
    simp only [hb, if_true]
    congr 1
    rw [Nat.xor_assoc, Nat.xor_comm (32 : Nat) _]
  | false =>
    have hne : ¬ (label &&& 32 ≠ 0) := fun h => by
      have ht := (and_two_pow_ne_zero_iff label 5).mp (h25.symm ▸ h)
      rw [hb] at ht
      exact Bool.false_ne_true ht
    rw [if_neg hne, hstage i hi, hsplit]
    simp [hb]

/-- The butterfly permutation keeps the word below `2^64`. -/
theorem butterfly_lt (label w : Nat) (hw : w < 2 ^ 64) :
    butterfly label w < 2 ^ 64 := by
  have hw5 : butterflyStages label w 5 < 2 ^ 64 :=
    butterflyStages_lt label w hw 5 (le_refl 5)
  unfold butterfly
  split
  · apply Nat.or_lt_two_pow
    · refine Nat.lt_of_le_of_lt ?_ hw5
      rw [Nat.shiftRight_eq_div_pow]
      exact Nat.div_le_self _ _
    · exact Nat.mod_lt _ (by positivity)
  · exact hw5

/-! Lemmas about `get_word`, the label loop, and `trailing_ones`. -/

/-- Bits below 64 of the all-ones word are set. -/
theorem NO_CANDIDATE_testBit (i : Nat) (hi : i < 64) : NO_CANDIDATE.testBit i = true := by
  rw [show NO_CANDIDATE = 2 ^ 64 - 1 from rfl, Nat.testBit_two_pow_sub_one]
  simpa using hi

/-- Words returned by `get_word` fit in 64 bits on well-formed states. -/
theorem get_word_lt {c : BPXChecker} (hwf : BPXWf c) (wi : Nat) :
    c.get_word wi < 2 ^ 64 := by
  unfold get_word word_filled_by
  split
  · norm_num
  split
  · norm_num
  · rename_i h1 h2
    have hlen : wi < c.bitmap.length := by omega
    have hmem : c.bitmap.getD wi 0 ∈ c.bitmap := by
      rw [List.getD_eq_getElem?_getD, List.getElem?_eq_getElem hlen]
      simpa using List.getElem_mem hlen
    exact hwf _ hmem

/-- The loop accumulator stays below `2^64`. -/
theorem dbmLoop_lt {c : BPXChecker} (hwf : BPXWf c) (bf : Nat) :
    ∀ ls x, x < 2 ^ 64 → dbmLoop c bf ls x < 2 ^ 64 := by
  intro ls
  induction ls with
  | nil => intro x hx; simpa [dbmLoop] using hx
  | cons l rest ih =>
    intro x hx
    simp only [dbmLoop]
    have hx' : x ||| butterfly l (c.get_word (word_index (bf ^^^ l))) < 2 ^ 64 :=
      Nat.or_lt_two_pow hx (butterfly_lt _ _ (get_word_lt hwf _))
    split
    · exact hx'
    · exact ih _ hx'

/-- Bits already set in the accumulator survive the loop. -/
theorem dbmLoop_mono (c : BPXChecker) (bf : Nat) :
    ∀ ls x i, x.testBit i = true → (dbmLoop c bf ls x).testBit i = true := by
  intro ls
  induction ls with
  | nil => intro x i hx; simpa [dbmLoop] using hx
  | cons l rest ih =>
    intro x i hx
    simp only [dbmLoop]
    have hx' : (x ||| butterfly l (c.get_word (word_index (bf ^^^ l)))).testBit i = true := by
      simp [Nat.testBit_or, hx]
    split
    · exact hx'
    · exact ih _ i hx'

/-- A bit contributed by any processed label is set in the loop's result
(positions below 64; the early break leaves the all-ones word). -/
theorem dbmLoop_of_mem (c : BPXChecker) (bf : Nat) :
    ∀ ls x l, l ∈ ls → ∀ i, i < 64 →
      (butterfly l (c.get_word (word_index (bf ^^^ l)))).testBit i = true →
      (dbmLoop c bf ls x).testBit i = true := by
  intro ls
  induction ls with
  | nil => intro x l hl; exact absurd hl (List.not_mem_nil l)
  | cons hd rest ih =>
    intro x l hl i hi hbit
    simp only [dbmLoop]
    rcases List.mem_cons.mp hl with heq | hmem
    · subst heq
      have hx' : (x ||| butterfly l (c.get_word (word_index (bf ^^^ l)))).testBit i = true := by
        simp [Nat.testBit_or, hbit]
      split
      · exact hx'
      · exact dbmLoop_mono c bf rest _ i hx'
    · split
      · rename_i hbreak
        rw [hbreak]
        exact NO_CANDIDATE_testBit i hi
      · exact ih _ l hmem i hi hbit

/-- Conversely, a bit set in the loop's result was set at the start or
contributed by some label in the list. -/
theorem dbmLoop_src (c : BPXChecker) (bf : Nat) :
    ∀ ls x i, (dbmLoop c bf ls x).testBit i = true →
      x.testBit i = true ∨ ∃ l ∈ ls,
        (butterfly l (c.get_word (word_index (bf ^^^ l)))).testBit i = true := by
  intro ls
  induction ls with
  | nil => intro x i hx; exact Or.inl (by simpa [dbmLoop] using hx)
  | cons hd rest ih =>
    intro x i hx
    simp only [dbmLoop] at hx
    split at hx
    · rw [Nat.testBit_or] at hx
      rcases Bool.or_eq_true_iff.mp hx with h1 | h2
      · exact Or.inl h1
      · exact Or.inr ⟨hd, List.mem_cons_self hd rest, h2⟩
    · rcases ih _ i hx with h1 | ⟨l, hmem, hbit⟩
      · rw [Nat.testBit_or] at h1
        rcases Bool.or_eq_true_iff.mp h1 with ha | hb
        · exact Or.inl ha
        · exact Or.inr ⟨hd, List.mem_cons_self hd rest, hb⟩
      · exact Or.inr ⟨l, List.mem_cons_of_mem hd hmem, hbit⟩

/-- The fuelled trailing-ones counter never exceeds its fuel. -/
theorem trailing_ones_aux_le : ∀ fuel x, trailing_ones_aux fuel x ≤ fuel := by
  intro fuel
  induction fuel with
  | zero => intro x; simp [trailing_ones_aux]
  | succ fuel ih =>
    intro x
    simp only [trailing_ones_aux]
    split
    · exact Nat.succ_le_succ (ih _)
    · omega

/-- The bit at the position reported by the trailing-ones counter is clear,
provided the fuel covers the word. -/
theorem trailing_ones_aux_testBit_self :
    ∀ fuel x, x < 2 ^ fuel → x.testBit (trailing_ones_aux fuel x) = false := by
  intro fuel
  induction fuel with
  | zero =>
    intro x hx
    have : x = 0 := by omega
    subst this
    simp [trailing_ones_aux]
  | succ fuel ih =>
    intro x hx
    simp only [trailing_ones_aux]
    split
    · rename_i hodd
      rw [Nat.testBit_succ]
      exact ih (x / 2) (by omega)
    · rename_i heven
      simp [Nat.testBit_zero]
      omega

/-- Every bit strictly below the reported trailing-ones count is set. -/
theorem trailing_ones_aux_testBit_lt :
    ∀ fuel x j, j < trailing_ones_aux fuel x → x.testBit j = true := by
  intro fuel
  induction fuel with
  | zero => intro x j hj; simp [trailing_ones_aux] at hj
  | succ fuel ih =>
    intro x j hj
    simp only [trailing_ones_aux] at hj
    split at hj
    · rename_i hodd
      cases j with
      | zero => simp [Nat.testBit_zero, hodd]
      | succ j =>
        rw [Nat.testBit_succ]
        exact ih (x / 2) j (by omega)
    · omega

/-- On a 64-bit word that is not all-ones, `trailing_ones` is below 64. -/
theorem trailing_ones_lt_64 {x : Nat} (hx : x < 2 ^ 64) (hne : x ≠ 2 ^ 64 - 1) :
    trailing_ones x < 64 := by
  by_contra hge
  have h64 : trailing_ones x = 64 := by
    have := trailing_ones_aux_le 64 x
    unfold trailing_ones at *
    omega
  apply hne
  apply Nat.eq_of_testBit_eq
  intro j
  rw [Nat.testBit_two_pow_sub_one]
  by_cases hj : j < 64
  · rw [trailing_ones_aux_testBit_lt 64 x j (by unfold trailing_ones at h64; omega)]
    simp [hj]
  · rw [Nat.testBit_lt_two_pow (Nat.lt_of_lt_of_le hx (Nat.pow_le_pow_right (by omega) (by omega)))]
    simp [hj]

/-- Unfolded form of `trailing_ones x` bit facts for 64-bit words. -/
theorem trailing_ones_testBit_self {x : Nat} (hx : x < 2 ^ 64) :
    x.testBit (trailing_ones x) = false :=
  trailing_ones_aux_testBit_self 64 x hx

/-! XOR arithmetic on slot indices: dividing and taking residues mod 64. -/

/-- XOR commutes with division by a power of two. -/
theorem xor_div_two_pow (x y k : Nat) :
    (x ^^^ y) / 2 ^ k = (x / 2 ^ k) ^^^ (y / 2 ^ k) := by
  apply Nat.eq_of_testBit_eq
  intro j
  rw [← Nat.shiftRight_eq_div_pow, ← Nat.shiftRight_eq_div_pow, ← Nat.shiftRight_eq_div_pow]
  simp [Nat.testBit_shiftRight, Nat.testBit_xor]

/-- XOR commutes with residues modulo a power of two. -/
theorem xor_mod_two_pow (x y k : Nat) :
    (x ^^^ y) % 2 ^ k = (x % 2 ^ k) ^^^ (y % 2 ^ k) := by
  apply Nat.eq_of_testBit_eq
  intro j
  simp only [Nat.testBit_mod_two_pow, Nat.testBit_xor]
  cases hd : decide (j < k) <;> simp

/-- XOR of a 64-aligned value with a 6-bit offset is their sum. -/
theorem aligned_xor_eq_add {q0 t : Nat} (ht : t < 64) : 64 * q0 ^^^ t = 64 * q0 + t := by
  have h64 : (64 : Nat) = 2 ^ 6 := by norm_num
  have hdiv : (64 * q0 ^^^ t) / 64 = q0 := by
    rw [h64, xor_div_two_pow]
    have h1 : 2 ^ 6 * q0 / 2 ^ 6 = q0 := by omega
    have h2 : t / 2 ^ 6 = 0 := by omega
    rw [h1, h2, Nat.xor_zero]
  have hmod : (64 * q0 ^^^ t) % 64 = t := by
    rw [h64, xor_mod_two_pow]
    have h1 : 2 ^ 6 * q0 % 2 ^ 6 = 0 := by omega
    have h2 : t % 2 ^ 6 = t := by omega
    rw [h1, h2, Nat.zero_xor]
  have := Nat.div_add_mod (64 * q0 ^^^ t) 64
  rw [hdiv, hmod] at this
  omega

/-- Word index of the slot probed for offset `t` and label `l` inside the
window fronted by `64 * q0`. -/
theorem slot_div {q0 t l : Nat} (ht : t < 64) :
    ((64 * q0 + t) ^^^ l) / 64 = q0 ^^^ l / 64 := by
  have h64 : (64 : Nat) = 2 ^ 6 := by norm_num
  rw [← aligned_xor_eq_add ht, Nat.xor_assoc, h64, xor_div_two_pow]
  have h1 : 2 ^ 6 * q0 / 2 ^ 6 = q0 := by omega
  rw [h1]
  congr 1
  rw [xor_div_two_pow]
  have h2 : t / 2 ^ 6 = 0 := by omega
  rw [h2, Nat.zero_xor]

/-- Bit offset of the slot probed for offset `t` and label `l` inside the
window fronted by `64 * q0`. -/
theorem slot_mod {q0 t l : Nat} (ht : t < 64) :
    ((64 * q0 + t) ^^^ l) % 64 = t ^^^ l % 64 := by
  have h64 : (64 : Nat) = 2 ^ 6 := by norm_num
  rw [← aligned_xor_eq_add ht, Nat.xor_assoc, h64, xor_mod_two_pow]
  have h1 : 2 ^ 6 * q0 % 2 ^ 6 = 0 := by omega
  rw [h1, Nat.zero_xor, xor_mod_two_pow]
  have h2 : t % 2 ^ 6 = t := by omega
  rw [h2]

/-- Alignment: masking a u32 with `BASE_FRONT_MASK` clears its low six bits. -/
theorem and_base_front_mask {n : Nat} (hn : n < 2 ^ 32) :
    n &&& BASE_FRONT_MASK = 64 * (n / 64) := by
  have hmask : ∀ j, j < 64 → (BASE_FRONT_MASK.testBit j = (decide (6 ≤ j) && decide (j < 32))) := by
    decide
  apply Nat.eq_of_testBit_eq
  intro j
  have hrhs : (64 * (n / 64)).testBit j = (decide (6 ≤ j) && n.testBit j) := by
    have h64 : 64 * (n / 64) = (n >>> 6) <<< 6 := by
      rw [Nat.shiftLeft_eq, Nat.shiftRight_eq_div_pow]
      have : (2 : Nat) ^ 6 = 64 := by norm_num
      rw [this]
      omega
    rw [h64, Nat.testBit_shiftLeft]
    by_cases h6 : 6 ≤ j
    · have : 6 + (j - 6) = j := by omega
      simp [h6, Nat.testBit_shiftRight, this]
    · simp [h6]
  rw [Nat.testBit_and, hrhs]
  by_cases hj : j < 64
  · rw [hmask j hj]
    by_cases h32 : j < 32
    · simp [h32, Bool.and_comm]
    · have hnb : n.testBit j = false :=
        Nat.testBit_lt_two_pow (Nat.lt_of_lt_of_le hn (Nat.pow_le_pow_right (by omega) (by omega)))
      simp [hnb]
  · have hnb : n.testBit j = false :=
      Nat.testBit_lt_two_pow (Nat.lt_of_lt_of_le hn (Nat.pow_le_pow_right (by omega) (by omega)))
    simp [hnb]

/-- The Bool test `is_fixed` is the occupancy bit of the word at the slot's
word index. -/
theorem is_fixed_eq_testBit (c : BPXChecker) (i : Nat) :
    c.is_fixed i = (c.get_word (i / 64)).testBit (i % 64) := by
  unfold is_fixed word_index word_offset
  rw [Nat.one_shiftLeft, and_two_pow_eq]
  cases hb : (c.get_word (i / 64)).testBit (i % 64) with
  | true =>
    simp only [if_true, hb]
    have : (2 : Nat) ^ (i % 64) ≠ 0 := (Nat.pow_pos (by omega)).ne'
    simp [this]
  | false => simp [hb]

/-- Word index of the word fetched for label `l` at a 64-aligned front. -/
theorem aligned_word_index {q0 l : Nat} :
    word_index (64 * q0 ^^^ l) = q0 ^^^ l / 64 := by
  unfold word_index
  have h64 : (64 : Nat) = 2 ^ 6 := by norm_num
  rw [h64, xor_div_two_pow]
  congr 1
  omega

/-- The accumulator of `disabled_base_mask` stays below `2^64`. -/
theorem disabled_base_mask_lt {c : BPXChecker} (hwf : BPXWf c) (bf : Nat)
    (labels : List Nat) : c.disabled_base_mask bf labels < 2 ^ 64 :=
  dbmLoop_lt hwf bf labels 0 (by norm_num)

/-- A bit of the disabled mask over a 64-aligned window is set exactly when
some label collides there: bit `i` is set iff some `l` in the list has the
slot `(64 q0 + i) XOR l` occupied. -/
theorem disabled_mask_spec (c : BPXChecker) (hwf : BPXWf c) (q0 : Nat)
    (labels : List Nat) (i : Nat) (hi : i < 64) :
    (c.disabled_base_mask (64 * q0) labels).testBit i = true ↔
      ∃ l ∈ labels, c.is_fixed ((64 * q0 + i) ^^^ l) = true := by
  have hcontrib : ∀ l, (butterfly l (c.get_word (word_index (64 * q0 ^^^ l)))).testBit i
      = c.is_fixed ((64 * q0 + i) ^^^ l) := by
    intro l
    rw [butterfly_testBit _ _ _ (get_word_lt hwf _) hi, is_fixed_eq_testBit,
      slot_div hi, slot_mod hi, aligned_word_index]
  constructor
  · intro h
    rcases dbmLoop_src c (64 * q0) labels 0 i h with h0 | ⟨l, hm, hb⟩
    · rw [Nat.zero_testBit] at h0
      exact Bool.noConfusion h0
    · exact ⟨l, hm, (hcontrib l) ▸ hb⟩
  · rintro ⟨l, hm, hb⟩
    exact dbmLoop_of_mem c (64 * q0) labels 0 l hm i hi ((hcontrib l).symm ▸ hb)

/-- Any base chosen from a surviving window is collision-free for every
label of the query. -/
theorem find_base_sound_aux (c : BPXChecker) (hwf : BPXWf c) (q0 : Nat)
    (labels : List Nat)
    (hx : c.disabled_base_mask (64 * q0) labels ≠ NO_CANDIDATE) :
    ∀ l ∈ labels,
      c.is_fixed
        ((64 * q0 + trailing_ones (c.disabled_base_mask (64 * q0) labels)) ^^^ l)
        = false := by
  intro l hl
  have hxlt := disabled_base_mask_lt hwf (64 * q0) labels
  have ht64 := trailing_ones_lt_64 hxlt hx
  apply Bool.eq_false_iff.mpr
  intro htrue
  have hset := (disabled_mask_spec c hwf q0 labels _ ht64).mpr ⟨l, hl, htrue⟩
  rw [trailing_ones_testBit_self hxlt] at hset
  exact Bool.noConfusion hset

/-- C1: for every occupancy bitmap, base origin and label list, if
`find_base_for_64adjacent` returns a base different from `INVALID_IDX`,
then for every label `l` the occupancy bit of slot `base XOR l` is clear
(with `get_word`'s conventions: indices beyond the allocated bitmap but
inside the 31-bit domain count as vacant). -/
theorem C1_free_base_soundness (c : BPXChecker) (hwf : BPXWf c)
    (base_origin : Nat) (hbo : base_origin < 2 ^ 32)
    (labels : List Nat) (hlabels : ∀ l ∈ labels, l < 2 ^ 32)
    (hne : c.find_base_for_64adjacent base_origin labels ≠ INVALID_IDX) :
    ∀ l ∈ labels,
      c.is_fixed (c.find_base_for_64adjacent base_origin labels ^^^ l) = false := by
  intro l hl
  simp only [find_base_for_64adjacent] at hne ⊢
  obtain ⟨q0, hq0⟩ : ∃ q0, base_origin &&& BASE_FRONT_MASK = 64 * q0 :=
    ⟨base_origin / 64, and_base_front_mask hbo⟩
  rw [hq0] at hne ⊢
  by_cases hx : c.disabled_base_mask (64 * q0) labels = NO_CANDIDATE
  · rw [if_neg (fun hnn => hnn hx)] at hne
    exact absurd rfl hne
  · rw [if_pos hx]
    have ht64 := trailing_ones_lt_64 (disabled_base_mask_lt hwf (64 * q0) labels) hx
    rw [aligned_xor_eq_add ht64]
    exact find_base_sound_aux c hwf q0 labels hx l hl

/-- Witness for C1 at a concrete bitmap, origin and label list. -/
theorem C1_free_base_soundness_witness :
    (BPXWf ⟨[1]⟩ ∧ (0 : Nat) < 2 ^ 32 ∧ (∀ l ∈ [(0 : Nat)], l < 2 ^ 32) ∧
      BPXChecker.find_base_for_64adjacent ⟨[1]⟩ 0 [0] ≠ INVALID_IDX) ∧
    (∀ l ∈ [(0 : Nat)],
      BPXChecker.is_fixed ⟨[1]⟩ (BPXChecker.find_base_for_64adjacent ⟨[1]⟩ 0 [0] ^^^ l)
        = false) :=
  ⟨⟨by decide, by decide, by decide, by decide⟩,
    C1_free_base_soundness ⟨[1]⟩ (by decide) 0 (by decide) [0] (by decide) (by decide)⟩

/-- C2: for every well-formed checker, every 64-aligned `base_front` and
every label, the butterfly-permuted occupancy word fetched in
`disabled_base_mask` has, at each position `i < 64`, exactly the occupancy
bit of slot `(base_front + i) XOR label`. -/
theorem C2_butterfly_equivalence (c : BPXChecker) (hwf : BPXWf c)
    (base_front label i : Nat) (halign : base_front % 64 = 0)
    (hbf : base_front < 2 ^ 32) (hlabel : label < 2 ^ 32) (hi : i < 64) :
    (butterfly label (c.get_word (word_index (base_front ^^^ label)))).testBit i
      = c.is_fixed ((base_front + i) ^^^ label) := by
  obtain ⟨q0, hq0⟩ : ∃ q0, base_front = 64 * q0 := ⟨base_front / 64, by omega⟩
  subst hq0
  rw [butterfly_testBit _ _ _ (get_word_lt hwf _) hi, is_fixed_eq_testBit,
    slot_div hi, slot_mod hi, aligned_word_index]

/-- Witness for C2 at a concrete checker, window, label and position. -/
theorem C2_butterfly_equivalence_witness :
    (BPXWf ⟨[1]⟩ ∧ (0 : Nat) % 64 = 0 ∧ (0 : Nat) < 2 ^ 32 ∧ (1 : Nat) < 2 ^ 32 ∧
      (0 : Nat) < 64) ∧
    (BPXChecker.butterfly 1
        (BPXChecker.get_word ⟨[1]⟩ (BPXChecker.word_index (0 ^^^ 1)))).testBit 0
      = BPXChecker.is_fixed ⟨[1]⟩ ((0 + 0) ^^^ 1) :=
  ⟨⟨by decide, by decide, by decide, by decide, by decide⟩,
    C2_butterfly_equivalence ⟨[1]⟩ (by decide) 0 1 0 (by decide) (by decide)
      (by decide) (by decide)⟩

/-- C5 counterexample: word index 0 of an empty bitmap does not address an
allocated word, yet `get_word` returns all-zeros, not the all-ones word
claimed. -/
theorem C5_get_word_counterexample :
    (BPXChecker.mk []).bitmap.length ≤ 0 ∧
    BPXChecker.get_word ⟨[]⟩ 0 ≠ 0xFFFFFFFFFFFFFFFF := by decide

/-- C5 amended: `get_word` returns the all-ones word only for word indices
with a bit outside the 25-bit word-index domain; indices inside the domain
but beyond the allocated bitmap give the all-zeros (vacant) word, and
allocated indices give the stored word. -/
theorem C5_get_word_amended (c : BPXChecker) (wi : Nat) :
    (wi &&& ((OFFSET_MASK >>> 6) ^^^ 0xffffffff) ≠ 0 → c.get_word wi = 2 ^ 64 - 1) ∧
    (wi &&& ((OFFSET_MASK >>> 6) ^^^ 0xffffffff) = 0 → c.bitmap.length ≤ wi →
      c.get_word wi = 0) ∧
    (wi &&& ((OFFSET_MASK >>> 6) ^^^ 0xffffffff) = 0 → wi < c.bitmap.length →
      c.get_word wi = c.bitmap.getD wi 0) := by
  refine ⟨fun h => ?_, fun h hlen => ?_, fun h hlen => ?_⟩
  · unfold get_word
    rw [if_pos h]
    rfl
  · unfold get_word
    rw [if_neg (fun hne => hne h), if_pos hlen]
    rfl
  · unfold get_word
    rw [if_neg (fun hne => hne h), if_neg (by omega)]

/-- Witness for the amended C5 at an empty bitmap and word index 0. -/
theorem C5_get_word_amended_witness : BPXChecker.get_word ⟨[]⟩ 0 = 0 :=
  (C5_get_word_amended ⟨[]⟩ 0).2.1 (by decide) (by decide)

/-- C6 counterexample: in the topmost 64-aligned window, base
`0xffffffff` is vacant for the label list `[0xffffffc0]` (slot 63 of word
0 is clear), yet `find_base_for_64adjacent` returns `INVALID_IDX`, because
the chosen base aliases the invalid marker. -/
theorem C6_completeness_counterexample :
    ((0xffffffc0 : Nat) &&& BASE_FRONT_MASK ≤ 0xffffffff) ∧
    ((0xffffffff : Nat) < ((0xffffffc0 : Nat) &&& BASE_FRONT_MASK) + 64) ∧
    (∀ l ∈ [(0xffffffc0 : Nat)],
      BPXChecker.is_fixed ⟨[2 ^ 63 - 1]⟩ (0xffffffff ^^^ l) = false) ∧
    BPXWf ⟨[2 ^ 63 - 1]⟩ ∧ (∀ l ∈ [(0xffffffc0 : Nat)], l < 2 ^ 32) ∧
    BPXChecker.find_base_for_64adjacent ⟨[2 ^ 63 - 1]⟩ 0xffffffc0 [0xffffffc0]
      = INVALID_IDX := by decide

/-- C6 amended: completeness holds for every window except the topmost one
of the 32-bit space: if `base_origin < 0xffffffc0` and some base in the
64-aligned window containing `base_origin` has all slots `b XOR l` vacant,
then `find_base_for_64adjacent` does not return `INVALID_IDX`. -/
theorem C6_free_base_completeness_amended (c : BPXChecker) (hwf : BPXWf c)
    (base_origin : Nat) (hbo : base_origin < 0xffffffc0)
    (labels : List Nat) (hlabels : ∀ l ∈ labels, l < 2 ^ 32)
    (b : Nat) (hblo : base_origin &&& BASE_FRONT_MASK ≤ b)
    (hbhi : b < (base_origin &&& BASE_FRONT_MASK) + 64)
    (hvac : ∀ l ∈ labels, c.is_fixed (b ^^^ l) = false) :
    c.find_base_for_64adjacent base_origin labels ≠ INVALID_IDX := by
  have hbo32 : base_origin < 2 ^ 32 := by omega
  have hq0 : base_origin &&& BASE_FRONT_MASK = 64 * (base_origin / 64) :=
    and_base_front_mask hbo32
  rw [hq0] at hblo hbhi
  have hi : b - 64 * (base_origin / 64) < 64 := by omega
  have hb' : 64 * (base_origin / 64) + (b - 64 * (base_origin / 64)) = b := by omega
  have hbiti :
      (c.disabled_base_mask (64 * (base_origin / 64)) labels).testBit
        (b - 64 * (base_origin / 64)) = false := by
    cases hbit : (c.disabled_base_mask (64 * (base_origin / 64)) labels).testBit
        (b - 64 * (base_origin / 64)) with
    | false => rfl
    | true =>
      obtain ⟨l, hm, hfix⟩ :=
        (disabled_mask_spec c hwf (base_origin / 64) labels _ hi).mp hbit
      rw [hb'] at hfix
      rw [hvac l hm] at hfix
      exact Bool.noConfusion hfix
  have hx : c.disabled_base_mask (64 * (base_origin / 64)) labels ≠ NO_CANDIDATE := by
    intro heq
    rw [heq, NO_CANDIDATE_testBit _ hi] at hbiti
    exact Bool.noConfusion hbiti
  simp only [find_base_for_64adjacent]
  rw [hq0, if_pos hx]
  have ht64 :=
    trailing_ones_lt_64 (disabled_base_mask_lt hwf (64 * (base_origin / 64)) labels) hx
  rw [aligned_xor_eq_add ht64]
  have hinv : INVALID_IDX = 0xffffffff := rfl
  have hdiv : base_origin / 64 ≤ 0x3fffffe := by omega
  intro heq
  rw [hinv] at heq
  omega

/-- Witness for the amended C6 at a concrete bitmap, origin, labels and
vacant base. -/
theorem C6_free_base_completeness_amended_witness :
    (BPXWf ⟨[2]⟩ ∧ (0 : Nat) < 0xffffffc0 ∧ (∀ l ∈ [(0 : Nat)], l < 2 ^ 32) ∧
      ((0 : Nat) &&& BASE_FRONT_MASK ≤ 0) ∧
      ((0 : Nat) < ((0 : Nat) &&& BASE_FRONT_MASK) + 64) ∧
      (∀ l ∈ [(0 : Nat)], BPXChecker.is_fixed ⟨[2]⟩ (0 ^^^ l) = false)) ∧
    BPXChecker.find_base_for_64adjacent ⟨[2]⟩ 0 [0] ≠ INVALID_IDX :=
  ⟨⟨by decide, by decide, by decide, by decide, by decide, by decide⟩,
    C6_free_base_completeness_amended ⟨[2]⟩ (by decide) 0 (by decide) [0]
      (by decide) 0 (by decide) (by decide) (by decide)⟩

/-- C7: `find_base_for_64adjacent` aligns the origin down to a multiple of
64; on an exhausted window (all-ones mask) it returns `INVALID_IDX`, and
otherwise it returns the window front plus the mask's trailing-ones count,
which is the lowest-indexed base in the window that is collision-free for
every label (all lower candidates collide for some label). -/
theorem C7_select_base_choice (c : BPXChecker) (hwf : BPXWf c)
    (base_origin : Nat) (hbo : base_origin < 2 ^ 32)
    (labels : List Nat) (hlabels : ∀ l ∈ labels, l < 2 ^ 32) :
    (base_origin &&& BASE_FRONT_MASK = 64 * (base_origin / 64)) ∧
    (c.disabled_base_mask (base_origin &&& BASE_FRONT_MASK) labels = NO_CANDIDATE →
      c.find_base_for_64adjacent base_origin labels = INVALID_IDX) ∧
    (c.disabled_base_mask (base_origin &&& BASE_FRONT_MASK) labels ≠ NO_CANDIDATE →
      trailing_ones (c.disabled_base_mask (base_origin &&& BASE_FRONT_MASK) labels) < 64 ∧
      c.find_base_for_64adjacent base_origin labels
        = (base_origin &&& BASE_FRONT_MASK)
            + trailing_ones (c.disabled_base_mask (base_origin &&& BASE_FRONT_MASK) labels) ∧
      (∀ l ∈ labels,
        c.is_fixed (c.find_base_for_64adjacent base_origin labels ^^^ l) = false) ∧
      (∀ j, j < trailing_ones
          (c.disabled_base_mask (base_origin &&& BASE_FRONT_MASK) labels) →
        ∃ l ∈ labels,
          c.is_fixed (((base_origin &&& BASE_FRONT_MASK) + j) ^^^ l) = true)) := by
  have hq0 : base_origin &&& BASE_FRONT_MASK = 64 * (base_origin / 64) :=
    and_base_front_mask hbo
  refine ⟨hq0, fun hall => ?_, fun hx => ?_⟩
  · simp only [find_base_for_64adjacent]
    rw [if_neg (fun hnn => hnn hall)]
  · have hxlt := disabled_base_mask_lt hwf (base_origin &&& BASE_FRONT_MASK) labels
    have ht64 := trailing_ones_lt_64 hxlt hx
    have hres : c.find_base_for_64adjacent base_origin labels
        = (base_origin &&& BASE_FRONT_MASK)
            + trailing_ones (c.disabled_base_mask (base_origin &&& BASE_FRONT_MASK) labels) := by
      simp only [find_base_for_64adjacent]
      rw [if_pos hx, hq0]
      exact aligned_xor_eq_add (by rwa [hq0] at ht64)
    refine ⟨ht64, hres, ?_, ?_⟩
    · intro l hl
      rw [hres, hq0]
      have hx' := hx
      rw [hq0] at hx'
      exact find_base_sound_aux c hwf (base_origin / 64) labels hx' l hl
    · intro j hj
      have hj64 : j < 64 := by omega
      have hbitj : (c.disabled_base_mask (base_origin &&& BASE_FRONT_MASK) labels).testBit j
          = true :=
        trailing_ones_aux_testBit_lt 64 _ j hj
      rw [hq0] at hbitj ⊢
      exact (disabled_mask_spec c hwf (base_origin / 64) labels j hj64).mp hbitj

/-- Witness for C7 at a concrete bitmap, origin and label list. -/
theorem C7_select_base_choice_witness :
    (BPXWf ⟨[1]⟩ ∧ (0 : Nat) < 2 ^ 32 ∧ (∀ l ∈ [(0 : Nat)], l < 2 ^ 32)) ∧
    ((0 : Nat) &&& BASE_FRONT_MASK = 64 * (0 / 64)) ∧
    (BPXChecker.disabled_base_mask ⟨[1]⟩ ((0 : Nat) &&& BASE_FRONT_MASK) [0]
        = NO_CANDIDATE →
      BPXChecker.find_base_for_64adjacent ⟨[1]⟩ 0 [0] = INVALID_IDX) ∧
    (BPXChecker.disabled_base_mask ⟨[1]⟩ ((0 : Nat) &&& BASE_FRONT_MASK) [0]
        ≠ NO_CANDIDATE →
      trailing_ones (BPXChecker.disabled_base_mask ⟨[1]⟩ ((0 : Nat) &&& BASE_FRONT_MASK) [0]) < 64 ∧
      BPXChecker.find_base_for_64adjacent ⟨[1]⟩ 0 [0]
        = ((0 : Nat) &&& BASE_FRONT_MASK)
            + trailing_ones (BPXChecker.disabled_base_mask ⟨[1]⟩ ((0 : Nat) &&& BASE_FRONT_MASK) [0]) ∧
      (∀ l ∈ [(0 : Nat)],
        BPXChecker.is_fixed ⟨[1]⟩ (BPXChecker.find_base_for_64adjacent ⟨[1]⟩ 0 [0] ^^^ l)
          = false) ∧
      (∀ j, j < trailing_ones
          (BPXChecker.disabled_base_mask ⟨[1]⟩ ((0 : Nat) &&& BASE_FRONT_MASK) [0]) →
        ∃ l ∈ [(0 : Nat)],
          BPXChecker.is_fixed ⟨[1]⟩ ((((0 : Nat) &&& BASE_FRONT_MASK) + j) ^^^ l)
            = true)) :=
  ⟨⟨by decide, by decide, by decide⟩,
    C7_select_base_choice ⟨[1]⟩ (by decide) 0 (by decide) [0] (by decide)⟩

/-- After an in-bounds `set_fixed`, each word of the bitmap is unchanged or
gains the single target bit. -/
theorem get_word_set_fixed_cases (c : BPXChecker) {j : Nat}
    (hin : word_index j < c.bitmap.length) (wi : Nat) :
    (BPXChecker.mk (c.bitmap.set (word_index j)
        ((c.bitmap.getD (word_index j) 0) ||| (1 <<< word_offset j)))).get_word wi
      = c.get_word wi ∨
    (BPXChecker.mk (c.bitmap.set (word_index j)
        ((c.bitmap.getD (word_index j) 0) ||| (1 <<< word_offset j)))).get_word wi
      = c.get_word wi ||| (1 <<< word_offset j) := by
  unfold get_word
  by_cases h1 : wi &&& ((OFFSET_MASK >>> 6) ^^^ 0xffffffff) ≠ 0
  · left
    rw [if_pos h1, if_pos h1]
  · rw [if_neg h1, if_neg h1]
    simp only [List.length_set]
    by_cases h2 : c.bitmap.length ≤ wi
    · left
      rw [if_pos h2, if_pos h2]
    · rw [if_neg h2, if_neg h2]
      by_cases h3 : wi = word_index j
      · right
        subst h3
        rw [List.getD_eq_getElem?_getD, List.getElem?_set_self hin]
        rfl
      · left
        rw [List.getD_eq_getElem?_getD, List.getElem?_set_ne (fun hh => h3 hh.symm),
          ← List.getD_eq_getElem?_getD]

/-- A completed `set_fixed` never clears a fixed bit. -/
theorem is_fixed_set_fixed {c c' : BPXChecker} {j : Nat}
    (h : c.set_fixed j = some c') (i : Nat) (hfix : c.is_fixed i = true) :
    c'.is_fixed i = true := by
  unfold set_fixed at h
  split at h
  · rename_i hin
    obtain rfl : BPXChecker.mk (c.bitmap.set (word_index j)
        ((c.bitmap.getD (word_index j) 0) ||| (1 <<< word_offset j))) = c' :=
      Option.some.inj h
    rw [is_fixed_eq_testBit] at hfix ⊢
    rcases get_word_set_fixed_cases c hin (i / 64) with hcase | hcase
    · rw [hcase]
      exact hfix
    · rw [hcase, Nat.testBit_or, hfix]
      rfl
  · exact Option.noConfusion h

/-- A non-shrinking `resize` leaves every `get_word` result unchanged. -/
theorem get_word_resize {c : BPXChecker} {n : Nat}
    (hgrow : c.bitmap.length ≤ required_word_len n) (wi : Nat) :
    (c.resize n).get_word wi = c.get_word wi := by
  have hbm : (c.resize n).bitmap
      = c.bitmap ++ List.replicate (required_word_len n - c.bitmap.length) 0 := by
    unfold resize listResize
    rw [List.take_of_length_le hgrow]
    rfl
  have hlen : (c.resize n).bitmap.length = required_word_len n := by
    rw [hbm]
    simp only [List.length_append, List.length_replicate]
    omega
  unfold get_word
  by_cases h1 : wi &&& ((OFFSET_MASK >>> 6) ^^^ 0xffffffff) ≠ 0
  · rw [if_pos h1, if_pos h1]
  · rw [if_neg h1, if_neg h1]
    by_cases h2 : wi < c.bitmap.length
    · have hA : ¬ ((c.resize n).bitmap.length ≤ wi) := by omega
      have hB : ¬ (c.bitmap.length ≤ wi) := by omega
      rw [if_neg hA, if_neg hB, hbm, List.getD_eq_getElem?_getD,
        List.getD_eq_getElem?_getD, List.getElem?_append_left h2]
    · by_cases h3 : wi < required_word_len n
      · have hA : ¬ ((c.resize n).bitmap.length ≤ wi) := by omega
        have hB : c.bitmap.length ≤ wi := by omega
        have hcond : wi - c.bitmap.length
            < required_word_len n - c.bitmap.length := by omega
        rw [if_neg hA, if_pos hB, hbm, List.getD_eq_getElem?_getD,
          List.getElem?_append_right (by omega), List.getElem?_replicate,
          if_pos hcond]
        rfl
      · have hA : (c.resize n).bitmap.length ≤ wi := by omega
        have hB : c.bitmap.length ≤ wi := by omega
        rw [if_pos hA, if_pos hB]

/-- C9 counterexample: a shrinking `resize` clears a fixed bit: starting
from a one-word bitmap with bit 0 fixed, `resize 0` empties the bitmap and
`is_fixed 0` becomes false. -/
theorem C9_monotonicity_counterexample :
    BPXChecker.is_fixed ⟨[1]⟩ 0 = true ∧
    applyOps ⟨[1]⟩ [BuildOp.resize 0] = some ⟨[]⟩ ∧
    BPXChecker.is_fixed ⟨[]⟩ 0 = false := by decide

/-- C9 amended: a fixed bit survives any completed sequence of `set_fixed`
and `resize` operations in which no `resize` shrinks the backing word
array (each resize's new word count is at least the current one). -/
theorem C9_monotonicity_amended (ops : List BuildOp) :
    ∀ (c c' : BPXChecker), goodSeq c ops = true → applyOps c ops = some c' →
    ∀ i, c.is_fixed i = true → c'.is_fixed i = true := by
  induction ops with
  | nil =>
    intro c c' _ happ i hfix
    obtain rfl : c = c' := Option.some.inj happ
    exact hfix
  | cons op rest ih =>
    intro c c' hgood happ i hfix
    simp only [goodSeq, Bool.and_eq_true] at hgood
    obtain ⟨hgrow, hrest⟩ := hgood
    simp only [applyOps] at happ
    cases hop : applyOp c op with
    | none =>
      rw [hop] at happ
      exact Option.noConfusion happ
    | some c1 =>
      rw [hop] at happ hrest
      refine ih c1 c' hrest happ i ?_
      cases op with
      | set_fixed j => exact is_fixed_set_fixed hop i hfix
      | resize n =>
        obtain rfl : c.resize n = c1 := Option.some.inj hop
        have hge : c.bitmap.length ≤ required_word_len n := by
          simpa [opGrows] using hgrow
        rw [is_fixed_eq_testBit, get_word_resize hge, ← is_fixed_eq_testBit]
        exact hfix

/-- Witness for the amended C9 at a concrete bitmap and operation list. -/
theorem C9_monotonicity_amended_witness :
    (goodSeq ⟨[1]⟩ [BuildOp.set_fixed 1, BuildOp.resize 128] = true ∧
      applyOps ⟨[1]⟩ [BuildOp.set_fixed 1, BuildOp.resize 128] = some ⟨[3, 0]⟩ ∧
      BPXChecker.is_fixed ⟨[1]⟩ 0 = true) ∧
    BPXChecker.is_fixed ⟨[3, 0]⟩ 0 = true :=
  ⟨⟨by decide, by decide, by decide⟩,
    C9_monotonicity_amended [BuildOp.set_fixed 1, BuildOp.resize 128] ⟨[1]⟩ ⟨[3, 0]⟩
      (by decide) (by decide) 0 (by decide)⟩

end BPXChecker

namespace Trie

/-! Lemmas relating the panicking node accesses to the total ones. -/

/-- In-bounds node access agrees with the total default access. -/
theorem node?_eq_some {t : Trie} {p : Nat} (hp : p < t.nodes.length) :
    t.node? p = some (t.nodeD p) := by
  unfold node? nodeD
  rw [List.getElem?_eq_getElem hp, List.getD_eq_getElem?_getD,
    List.getElem?_eq_getElem hp]
  rfl

/-- Out-of-bounds total access yields the vacant sentinel. -/
theorem nodeD_eq_vacant {t : Trie} {p : Nat} (hp : t.nodes.length ≤ p) :
    t.nodeD p = vacantNode := by
  unfold nodeD
  rw [List.getD_eq_getElem?_getD, List.getElem?_eq_none hp]
  rfl

/-- The vacant sentinel's back-pointer is the all-ones 31-bit value. -/
theorem vacant_get_check : vacantNode.get_check = OFFSET_MASK := by decide

/-- A vacant node's back-pointer is the all-ones 31-bit value. -/
theorem get_check_of_vacant {n : Node} (h : n.is_vacant = true) :
    n.get_check = OFFSET_MASK := by
  unfold Node.is_vacant at h
  rw [Bool.and_eq_true] at h
  have hchk : n.check = OFFSET_MASK := beq_iff_eq.mp h.2
  unfold Node.get_check
  rw [hchk, Nat.and_self]

/-- An accepted back-pointer implies the child index is in bounds. -/
theorem check_in_bounds {t : Trie} (hwf : WFQuery t) {p child : Nat}
    (hp : p < t.nodes.length) (hck : (t.nodeD child).get_check = p) :
    child < t.nodes.length := by
  by_contra hge
  rw [nodeD_eq_vacant (by omega), vacant_get_check] at hck
  have hcap := hwf.2.1
  omega

/-- An accepted back-pointer implies the child node is placed: a vacant
node's back-pointer is `OFFSET_MASK`, which no in-bounds parent index
equals. -/
theorem check_not_vacant {t : Trie} (hwf : WFQuery t) {p child : Nat}
    (hp : p < t.nodes.length) (hck : (t.nodeD child).get_check = p) :
    (t.nodeD child).is_vacant = false := by
  cases hv : (t.nodeD child).is_vacant with
  | false => rfl
  | true =>
    rw [get_check_of_vacant hv] at hck
    have hcap := hwf.2.1
    omega

/-- On a well-formed trie, `get_child_idx` at an in-bounds placed node and
a mapper-produced code never panics and returns exactly the
specification-side step. -/
theorem get_child_idx_eq (t : Trie) (hwf : WFQuery t) {p : Nat}
    (hp : p < t.nodes.length) (hpv : (t.nodeD p).is_vacant = false) {mc : Nat}
    (hmc : ∃ ch, t.mapper.get ch = some mc) :
    t.get_child_idx p mc =
      Except.ok (if (t.nodeD ((t.nodeD p).get_base ^^^ mc)).get_check = p
        then some ((t.nodeD p).get_base ^^^ mc) else none) := by
  obtain ⟨ch, hch⟩ := hmc
  unfold get_child_idx
  rw [node?_eq_some hp]
  cases hleaf : (t.nodeD p).is_leaf with
  | true =>
    have hck : (t.nodeD ((t.nodeD p).get_base ^^^ mc)).get_check ≠ p := by
      by_cases hc : (t.nodeD p).get_base ^^^ mc < t.nodes.length
      · exact hwf.2.2.2.2.2 p hp hleaf _ hc
      · rw [nodeD_eq_vacant (by omega), vacant_get_check]
        have hcap := hwf.2.1
        omega
    rw [if_neg hck]
    simp [hleaf]
  | false =>
    have hcl : (t.nodeD p).get_base ^^^ mc < t.nodes.length :=
      hwf.2.2.2.1 p hp hpv hleaf ch mc hch
    by_cases hck : (t.nodeD ((t.nodeD p).get_base ^^^ mc)).get_check = p
    · rw [if_pos hck]
      simp [hleaf, node?_eq_some hcl, hck]
    · rw [if_neg hck]
      simp [hleaf, node?_eq_some hcl, hck]

/-- On a well-formed trie, the `exact_match` loop never panics and computes
the specification-side walk, from any in-bounds placed node. -/
theorem emLoop_eq (t : Trie) (hwf : WFQuery t) :
    ∀ (key : List Char) (p : Nat), p < t.nodes.length →
      (t.nodeD p).is_vacant = false →
      t.emLoop key p = Except.ok (t.em_spec key p) := by
  intro key
  induction key with
  | nil =>
    intro p hp hpv
    simp only [emLoop, em_spec]
    rw [node?_eq_some hp]
    cases hleaf : (t.nodeD p).is_leaf with
    | true => simp [hleaf]
    | false =>
      cases hhl : (t.nodeD p).has_leaf with
      | true =>
        have hli : (t.nodeD p).get_base ^^^ END_CODE < t.nodes.length :=
          hwf.2.2.2.2.1 p hp hhl
        simp [hleaf, hhl, node?_eq_some hli]
      | false => simp [hleaf, hhl]
  | cons c rest ih =>
    intro p hp hpv
    simp only [emLoop, em_spec]
    cases hmc : t.mapper.get c with
    | none => simp
    | some mc =>
      simp only [get_child_idx_eq t hwf hp hpv ⟨c, hmc⟩]
      by_cases hck : (t.nodeD ((t.nodeD p).get_base ^^^ mc)).get_check = p
      · have hchl : (t.nodeD p).get_base ^^^ mc < t.nodes.length :=
          check_in_bounds hwf hp hck
        have hchv : (t.nodeD ((t.nodeD p).get_base ^^^ mc)).is_vacant = false :=
          check_not_vacant hwf hp hck
        simp only [if_pos hck]
        exact ih _ hchl hchv
      · simp only [if_neg hck]

/-- The sample trie, vacant slot included, satisfies the builder
guarantees. -/
theorem sampleTrie_wf : WFQuery sampleTrie := by
  refine ⟨by decide, by decide, by decide, ?_, by decide, by decide⟩
  intro p hp hpv hnl ch mc hmc
  have hmc' : mc = 1 := by
    by_cases hch : ch = 'a'
    · subst hch
      simp [sampleTrie, sampleMapper] at hmc
      omega
    · simp [sampleTrie, sampleMapper, hch] at hmc
  subst hmc'
  have hp3 : p < 3 := by simpa [sampleTrie] using hp
  interval_cases p
  · decide
  · exact absurd hnl (by decide)
  · exact absurd hpv (by decide)

/-- C3: on every finished trie (one satisfying the builder guarantees) and
every key, `exact_match` runs the claimed walk: it starts at the root,
fails to nothing on the first unmappable character, steps from node `p`
with code `c` to `base(p) XOR c` exactly when `check(child) = p`, and at
the end returns the masked base value of a leaf, the synthetic leaf's
value (at `base XOR END_CODE`) when `has_leaf`, and nothing otherwise —
and it never panics doing so. -/
theorem C3_exact_match_semantics (t : Trie) (hwf : WFQuery t)
    (key : List Char) :
    t.exact_match key = Except.ok (t.exact_match_spec key) :=
  emLoop_eq t hwf key 0 hwf.1 hwf.2.2.1

/-- Witness for C3 on the sample trie and the key `a`. -/
theorem C3_exact_match_semantics_witness :
    WFQuery sampleTrie ∧
    sampleTrie.exact_match ['a']
      = Except.ok (sampleTrie.exact_match_spec ['a']) :=
  ⟨sampleTrie_wf, C3_exact_match_semantics sampleTrie sampleTrie_wf ['a']⟩

/-- Pushing elements one by one onto an accumulator is appending the map. -/
theorem foldl_push_eq_append (f : Char → Option Nat) :
    ∀ (text : List Char) (acc : List (Option Nat)),
      text.foldl (fun a c => a ++ [f c]) acc = acc ++ text.map f := by
  intro text
  induction text with
  | nil => intro acc; simp
  | cons c rest ih =>
    intro acc
    simp only [List.foldl_cons, List.map_cons, ih]
    simp

/-- C10: `map_text` clears the output first and then pushes one mapped
code per character: the result is exactly the character-wise image of the
text under the mapper, independent of the output vector's prior contents
and of the node table, with one entry per character. -/
theorem C10_map_text_independence (t : Trie) (text : List Char)
    (mapped : List (Option Nat)) :
    t.map_text text mapped = text.map t.mapper.get ∧
    (t.map_text text mapped).length = text.length ∧
    (∀ mapped', t.map_text text mapped' = t.map_text text mapped) ∧
    (∀ nodes' : List Node,
      Trie.map_text ⟨t.mapper, nodes'⟩ text mapped = t.map_text text mapped) := by
  have key : ∀ (tr : Trie) (m : List (Option Nat)),
      tr.map_text text m = text.map tr.mapper.get := by
    intro tr m
    unfold map_text
    rw [List.take_zero, foldl_push_eq_append]
    simp
  refine ⟨key t mapped, ?_, fun m' => by rw [key, key], fun nodes' => by rw [key, key]⟩
  rw [key t mapped]
  simp

/-- An exhausted searcher state yields nothing and stays put. -/
theorem cs_next_terminal (t : Trie) (s : CommonPrefixSearcher)
    (hpos : s.text.length ≤ s.text_pos) :
    t.cs_next s = Except.ok (none, s) := by
  rw [cs_next, dif_neg (by omega)]

/-- On a well-formed trie and a mapped text, each pull of the searcher
never panics, computes the specification-side step, and keeps the node
index inside the table and on a placed node. -/
theorem cs_next_main (t : Trie) (hwf : WFQuery t) :
    ∀ (fuel : Nat) (s : CommonPrefixSearcher),
      s.text.length - s.text_pos ≤ fuel →
      MappedText t s.text → s.node_idx < t.nodes.length →
      (t.nodeD s.node_idx).is_vacant = false →
      t.cs_next s = Except.ok (t.cs_next_spec s) ∧
      (t.cs_next_spec s).2.node_idx < t.nodes.length ∧
      (t.nodeD (t.cs_next_spec s).2.node_idx).is_vacant = false := by
  intro fuel
  induction fuel with
  | zero =>
    intro s hle hmt hn hnv
    have hpos : ¬ (s.text_pos < s.text.length) := by omega
    have hspec : t.cs_next_spec s = (none, s) := by
      rw [cs_next_spec, dif_neg hpos]
    rw [hspec, cs_next, dif_neg hpos]
    exact ⟨rfl, hn, hnv⟩
  | succ fuel ih =>
    intro s hle hmt hn hnv
    by_cases hpos : s.text_pos < s.text.length
    case neg =>
      have hspec : t.cs_next_spec s = (none, s) := by
        rw [cs_next_spec, dif_neg hpos]
      rw [hspec, cs_next, dif_neg hpos]
      exact ⟨rfl, hn, hnv⟩
    case pos =>
      rw [cs_next, cs_next_spec, dif_pos hpos, dif_pos hpos]
      cases htxt : s.text.getD s.text_pos none with
      | none =>
        simp only [htxt]
        exact ⟨trivial, hn, hnv⟩
      | some mc =>
        have hmem : some mc ∈ s.text := by
          rw [List.getD_eq_getElem?_getD, List.getElem?_eq_getElem hpos] at htxt
          simp only [Option.getD_some] at htxt
          exact htxt ▸ List.getElem_mem hpos
        have hmc : ∃ ch, t.mapper.get ch = some mc := hmt _ hmem mc rfl
        simp only [htxt, get_child_idx_eq t hwf hn hnv hmc]
        by_cases hck : (t.nodeD ((t.nodeD s.node_idx).get_base ^^^ mc)).get_check
            = s.node_idx
        case neg =>
          simp only [if_neg hck]
          exact ⟨trivial, hn, hnv⟩
        case pos =>
          have hchl := check_in_bounds hwf hn hck
          have hchv := check_not_vacant hwf hn hck
          simp only [if_pos hck, node?_eq_some hchl]
          cases hleaf : (t.nodeD ((t.nodeD s.node_idx).get_base ^^^ mc)).is_leaf with
          | true =>
            refine ⟨by simp, ?_, ?_⟩
            · simpa using hchl
            · simpa using hchv
          | false =>
            cases hhl : (t.nodeD ((t.nodeD s.node_idx).get_base ^^^ mc)).has_leaf with
            | true =>
              have hli := hwf.2.2.2.2.1 _ hchl hhl
              refine ⟨by simp [node?_eq_some hli], ?_, ?_⟩
              · simpa using hchl
              · simpa using hchv
            | false =>
              have hrec := ih
                { s with node_idx := (t.nodeD s.node_idx).get_base ^^^ mc,
                         text_pos := s.text_pos + 1 }
                (by simp; omega) hmt hchl hchv
              simpa using hrec

/-- C4: on every finished trie and mapped text, each pull of the searcher
behaves as claimed: an unmappable position or a rejected transition
terminates the iteration with no match; a successful step onto a leaf
yields its value with `end = position + 1` and terminates; onto a
`has_leaf` node it yields the synthetic leaf's value with
`end = position + 1` and continues from that node; otherwise the walk
advances without yielding.  An exhausted searcher yields nothing ever
after. -/
theorem C4_common_search_step (t : Trie) (hwf : WFQuery t)
    (s : CommonPrefixSearcher) (hmt : MappedText t s.text)
    (hn : s.node_idx < t.nodes.length)
    (hnv : (t.nodeD s.node_idx).is_vacant = false) :
    t.cs_next s = Except.ok (t.cs_next_spec s) ∧
    (t.cs_next_spec s).2.node_idx < t.nodes.length ∧
    (t.nodeD (t.cs_next_spec s).2.node_idx).is_vacant = false ∧
    (∀ s' : CommonPrefixSearcher, s'.text.length ≤ s'.text_pos →
      t.cs_next s' = Except.ok (none, s')) := by
  obtain ⟨h1, h2, h3⟩ :=
    cs_next_main t hwf (s.text.length - s.text_pos) s (le_refl _) hmt hn hnv
  exact ⟨h1, h2, h3, fun s' h => cs_next_terminal t s' h⟩

/-- Witness for C4 on the sample trie and the mapped text `[some 1]`. -/
theorem C4_common_search_step_witness :
    (WFQuery sampleTrie ∧ MappedText sampleTrie [some 1] ∧
      (0 : Nat) < sampleTrie.nodes.length ∧
      (sampleTrie.nodeD 0).is_vacant = false) ∧
    (Trie.cs_next sampleTrie ⟨[some 1], 0, 0⟩
        = Except.ok (Trie.cs_next_spec sampleTrie ⟨[some 1], 0, 0⟩) ∧
      (Trie.cs_next_spec sampleTrie ⟨[some 1], 0, 0⟩).2.node_idx
          < sampleTrie.nodes.length ∧
      (sampleTrie.nodeD
          (Trie.cs_next_spec sampleTrie ⟨[some 1], 0, 0⟩).2.node_idx).is_vacant
        = false ∧
      (∀ s' : CommonPrefixSearcher, s'.text.length ≤ s'.text_pos →
        Trie.cs_next sampleTrie s' = Except.ok (none, s'))) := by
  have hmt : MappedText sampleTrie [some 1] := by
    intro o ho v hv
    simp only [List.mem_singleton] at ho
    subst ho
    injection hv with hv1
    subst hv1
    exact ⟨'a', by decide⟩
  exact ⟨⟨sampleTrie_wf, hmt, by decide, by decide⟩,
    C4_common_search_step sampleTrie sampleTrie_wf ⟨[some 1], 0, 0⟩ hmt
      (by decide) (by decide)⟩

/-- C8: on every finished trie, queries are total: `exact_match` never
panics on any key (absence is an `Option.none` result), each searcher pull
on a mapped text from an in-bounds node never panics and keeps the node
index in bounds (so a whole search never faults), and the searcher's
initial state starts in bounds; in particular every node-table access,
including the child probe `base(p) XOR code` and the synthetic leaf probe
`base XOR END_CODE`, stays inside the table. -/
theorem C8_query_totality (t : Trie) (hwf : WFQuery t) :
    (∀ key : List Char, ∃ r : Option Nat, t.exact_match key = Except.ok r) ∧
    (∀ s : CommonPrefixSearcher, MappedText t s.text →
      s.node_idx < t.nodes.length →
      (t.nodeD s.node_idx).is_vacant = false →
      ∃ (m : Option Match) (s' : CommonPrefixSearcher),
        t.cs_next s = Except.ok (m, s') ∧ s'.node_idx < t.nodes.length ∧
          (t.nodeD s'.node_idx).is_vacant = false) ∧
    (∀ text : List (Option Nat),
      (t.common_prefix_searcher text).node_idx < t.nodes.length ∧
        (t.nodeD (t.common_prefix_searcher text).node_idx).is_vacant = false) := by
  refine ⟨fun key => ⟨t.exact_match_spec key, emLoop_eq t hwf key 0 hwf.1 hwf.2.2.1⟩,
    fun s hmt hn hnv => ?_, fun text => ⟨hwf.1, hwf.2.2.1⟩⟩
  obtain ⟨h1, h2, h3⟩ :=
    cs_next_main t hwf (s.text.length - s.text_pos) s (le_refl _) hmt hn hnv
  rcases hsp : t.cs_next_spec s with ⟨m, s'⟩
  rw [hsp] at h1 h2 h3
  exact ⟨m, s', h1, h2, h3⟩

/-- Witness for C8 on the sample trie. -/
theorem C8_query_totality_witness :
    WFQuery sampleTrie ∧
    ((∀ key : List Char, ∃ r : Option Nat,
        sampleTrie.exact_match key = Except.ok r) ∧
      (∀ s : CommonPrefixSearcher, MappedText sampleTrie s.text →
        s.node_idx < sampleTrie.nodes.length →
        (sampleTrie.nodeD s.node_idx).is_vacant = false →
        ∃ (m : Option Match) (s' : CommonPrefixSearcher),
          sampleTrie.cs_next s = Except.ok (m, s') ∧
            s'.node_idx < sampleTrie.nodes.length ∧
            (sampleTrie.nodeD s'.node_idx).is_vacant = false) ∧
      (∀ text : List (Option Nat),
        (sampleTrie.common_prefix_searcher text).node_idx
            < sampleTrie.nodes.length ∧
          (sampleTrie.nodeD
              (sampleTrie.common_prefix_searcher text).node_idx).is_vacant
            = false)) :=
  ⟨sampleTrie_wf, C8_query_totality sampleTrie sampleTrie_wf⟩

end Trie

end Crawdad
